import Mathlib

/-!
Verification of the barcode counting and inference subsystem of
`viral-core` (`illumina.py`): the scatter-gather counting engine
`count_and_sort_barcodes` and the barcode guesser around
`main_guess_barcodes`.

Barcodes are modelled as lists of characters (Python strings); a tile
barcode file is modelled as the list of barcode fields of its lines.
The persistent count index (SQLite-backed `util.file.CountDB` in the
source, whose implementation lives outside this tree) is modelled from
the spec as an association list from barcode to count.
-/

namespace ViralCore

abbrev Barcode := List Char

/-- A tile barcode file: one barcode field per line. -/
abbrev Tile := List Barcode

/-- A count index: persistent key → count mapping (`util.file.CountDB`). -/
abbrev CountDB := List (Barcode × Nat)

/-- The count recorded for key `k`: sum of the counts of entries whose key
is `k` (0 when absent; in indexes built by the operations below each key
occurs at most once). -/
def lookupCount : CountDB → Barcode → Nat
  | [], _ => 0
  | kc :: rest, k => (if kc.1 = k then kc.2 else 0) + lookupCount rest k

/-- The sum of all counts stored in the index. -/
def totalCount : CountDB → Nat
  | [] => 0
  | kc :: rest => kc.2 + totalCount rest

/-- Modelled from the spec: the upsert-add primitive of the count index —
add `c` to the running total for key `k`, inserting the key if new. -/
def addCount (db : CountDB) (k : Barcode) (c : Nat) : CountDB :=
  match db with
  | [] => [(k, c)]
  | (k1, c1) :: rest =>
    if k1 = k then (k1, c1 + c) :: rest else (k1, c1) :: addCount rest k c

/-- A line is counted when `include_noise` is set or the barcode contains
no no-call placeholder character (a period). -/
def countedLine (include_noise : Bool) (bc : Barcode) : Bool :=
  include_noise || !(decide ('.' ∈ bc))

/-- Modelled from the spec: `util.file.count_occurrences_in_tsv_sqlite_backed`
(not under src/) — a counting worker streams one tile file line by line,
optionally skips noise lines, and increments a fresh local index keyed by
the full barcode string. -/
def count_occurrences_in_tsv (tile : Tile) (include_noise : Bool) : CountDB :=
  tile.foldl
    (fun db bc => if countedLine include_noise bc then addCount db bc 1 else db)
    []

/-- Modelled from the spec: `util.file.CountDB.add_counts_from_other_db`
(not under src/) — for every barcode key present in the worker index, add
its count to the running total for that key in the reduction index,
inserting keys that are new. -/
def add_counts_from_other_db (reduce_db other : CountDB) : CountDB :=
  other.foldl (fun db kc => addCount db kc.1 kc.2) reduce_db

/-- The reduction phase of `count_and_sort_barcodes`: merge a list of
worker indexes (one per completed worker, in completion order) into one
reduction index. -/
def reduceWorkerDBs (dbs : List CountDB) : CountDB :=
  dbs.foldl add_counts_from_other_db []

/-- The final reduction index for a set of tile files: each tile is
counted by a worker and the worker indexes are merged. -/
def reduceDB (tiles : List Tile) (include_noise : Bool) : CountDB :=
  reduceWorkerDBs (tiles.map (fun t => count_occurrences_in_tsv t include_noise))

/-- Insert one entry into a count-descending list, keeping it sorted. -/
def insertDesc (r : Barcode × Nat) : CountDB → CountDB
  | [] => [r]
  | x :: xs => if r.2 ≤ x.2 then x :: insertDesc r xs else r :: x :: xs

/-- Modelled from the spec: `util.file.CountDB.get_counts_descending`
(not under src/) — iterate the index's entries in descending count order
(tie-break among equal counts unspecified; this model keeps the index's
own order among ties). -/
def get_counts_descending (db : CountDB) : CountDB :=
  db.foldr insertDesc []

/-- A known reference index: (index name, index sequence), as held by
`IlluminaIndexReference` (`util.illumina_indices`, not under src/). -/
abbrev ReferenceIndex := List (String × Barcode)

/-- Number of mismatched positions between two equal-length sequences. -/
def mismatches : List Char → List Char → Nat
  | [], _ => 0
  | _, [] => 0
  | a :: as, b :: bs => (if a = b then 0 else 1) + mismatches as bs

/-- Modelled from the spec: `IlluminaIndexReference.guess_index` (not
under src/) — map a barcode segment, allowing up to Hamming distance 1,
to the names of all known reference indexes within that distance. -/
def guess_index (ref : ReferenceIndex) (seg : Barcode) : List String :=
  (ref.filter (fun nb => nb.2.length == seg.length && mismatches nb.2 seg ≤ 1)).map
    (fun nb => nb.1)

/-- Python's `",".join(...)`. -/
def commaJoin : List String → String
  | [] => ""
  | [x] => x
  | x :: y :: xs => x ++ "," ++ commaJoin (y :: xs)

/-- `",".join([x for x in guess_index(seg, distance=1)] or ["Unknown"])`:
the likely-index-name field written for one barcode segment. -/
def likelyField (ref : ReferenceIndex) (seg : Barcode) : String :=
  let names := guess_index ref seg
  if names = [] then "Unknown" else commaJoin names

/-- One data row of the output TSV of `count_and_sort_barcodes`. -/
structure OutRow where
  barcode1 : Barcode
  likely_index_names1 : String
  barcode2 : Barcode
  likely_index_names2 : String
  count : Nat
deriving DecidableEq, Repr

/-- `writer.writerow((barcode[:barcode1_len], ..., barcode[barcode1_len:len(barcode)], ..., count))`:
format one reduction-index entry as an output row. -/
def formatRow (ref : ReferenceIndex) (barcode1_len : Nat) (kc : Barcode × Nat) : OutRow :=
  { barcode1 := kc.1.take barcode1_len
    likely_index_names1 := likelyField ref (kc.1.take barcode1_len)
    barcode2 := kc.1.drop barcode1_len
    likely_index_names2 := likelyField ref (kc.1.drop barcode1_len)
    count := kc.2 }

/-- `truncateToLength and num_processed > truncateToLength`: the break
condition of the output loop, with Python truthiness (`None` and `0` are
falsy). -/
def truncBreak (truncateToLength : Option Nat) (num_processed : Nat) : Bool :=
  match truncateToLength with
  | none => false
  | some n => decide (n ≠ 0) && decide (num_processed > n)

/-- The output loop of `count_and_sort_barcodes`: enumerate the sorted
entries, breaking as soon as the truncation condition holds. -/
def emitRows (ref : ReferenceIndex) (barcode1_len : Nat) (truncateToLength : Option Nat) :
    Nat → CountDB → List OutRow
  | _, [] => []
  | num_processed, kc :: rest =>
    if truncBreak truncateToLength num_processed then []
    else formatRow ref barcode1_len kc :: emitRows ref barcode1_len truncateToLength (num_processed + 1) rest

/-- The output TSV: optional header row then the data rows. -/
structure Summary where
  header : Option (List String)
  rows : List OutRow
deriving DecidableEq, Repr

/-- The header row written unless `omitHeader` is set. -/
def headerRow : List String :=
  ["Barcode1", "Likely_Index_Names1", "Barcode2", "Likely_Index_Names2", "Count"]

/-- `count_and_sort_barcodes(barcodes_dir, outSummary, barcode1_len, barcode2_len,
truncateToLength, includeNoise, omitHeader, threads)`: count the barcodes of all
tile files in parallel, reduce the per-worker indexes into one index, and write
the ranked summary. `barcode2_len` is accepted as in the source signature;
`threads` only sets worker parallelism and does not affect the output value. -/
def count_and_sort_barcodes (ref : ReferenceIndex) (tiles : List Tile)
    (barcode1_len : Nat) (barcode2_len : Nat) (truncateToLength : Option Nat)
    (includeNoise : Bool) (omitHeader : Bool) : Summary :=
  let _ := barcode2_len
  let db := reduceDB tiles includeNoise
  { header := if omitHeader then none else some headerRow
    rows := emitRows ref barcode1_len truncateToLength 0 (get_counts_descending db) }

/-! ### Barcode guesser (`main_guess_barcodes` / `IlluminaBarcodeHelper`) -/

/-- Error kinds of the guesser (spec §7). -/
inductive GuessError where
  | ConfigurationError
  | PoolAssignmentError
deriving DecidableEq, Repr

/-- A per-sample record of the demultiplexing metrics: expected barcode
pair, sample name, observed assigned-read count. -/
structure SampleMetrics where
  name : String
  barcode1 : Barcode
  barcode2 : Barcode
  readCount : Nat
deriving DecidableEq, Repr

/-- A novel barcode pair observed in the ranked table with its count. -/
structure NovelPair where
  barcode1 : Barcode
  barcode2 : Barcode
  count : Nat
deriving DecidableEq, Repr

/-- A novel pair is a partial match for an expected pair when it shares
exactly one barcode (at either position) with it. -/
def partialMatch (expected1 expected2 : Barcode) (p : NovelPair) : Bool :=
  (decide (p.barcode1 = expected1)) != (decide (p.barcode2 = expected2))

/-- The most abundant pair of a list (keeping the earlier pair on ties). -/
def mostAbundant : List NovelPair → Option NovelPair
  | [] => none
  | p :: rest =>
    match mostAbundant rest with
    | none => some p
    | some q => if q.count > p.count then some q else some p

/-- Modelled from the spec: the per-sample guess inside
`IlluminaBarcodeHelper.find_uncertain_barcodes` (`util.illumina_indices`,
not under src/) — prefer the most abundant partial-match novel pair; only
when none exists fall back to the most abundant novel pair overall. -/
def guessForSample (expected1 expected2 : Barcode) (novel : List NovelPair) :
    Option (NovelPair × String) :=
  match mostAbundant (novel.filter (partialMatch expected1 expected2)) with
  | some p => some (p, "partial")
  | none => (mostAbundant novel).map (fun p => (p, "none"))

/-- Modelled from the spec: `IlluminaBarcodeHelper.find_uncertain_barcodes`
(`util.illumina_indices`, not under src/) — first check that the overall
fraction of reads assigned to known samples reaches
`expected_assigned_fraction`, failing with `PoolAssignmentError` before
any per-sample guess; then guess a barcode pair for each flagged sample. -/
def find_uncertain_barcodes (metrics : List SampleMetrics) (totalReads : Nat)
    (flagged : List SampleMetrics) (novel : List NovelPair)
    (expected_assigned_fraction : ℚ) :
    Except GuessError (List (String × Option (NovelPair × String))) :=
  let totalAssigned : Nat := (metrics.map (fun s => s.readCount)).sum
  if (totalAssigned : ℚ) / (totalReads : ℚ) < expected_assigned_fraction then
    Except.error GuessError.PoolAssignmentError
  else
    Except.ok (flagged.map (fun s => (s.name, guessForSample s.barcode1 s.barcode2 novel)))

/-- The sample-selection options of `parser_guess_barcodes` that argparse
places in one mutually exclusive group. -/
structure GuessBarcodesSelection where
  readcount_threshold : Option Nat
  sample_names : Option (List String)
deriving DecidableEq, Repr

/-- The mutual-exclusion check that `parser.add_mutually_exclusive_group()`
performs on the sample-selection options of `parser_guess_barcodes`:
supplying both members of the group is a configuration error. -/
def checkGuessBarcodesSelection (sel : GuessBarcodesSelection) :
    Except GuessError Unit :=
  if sel.readcount_threshold.isSome && sel.sample_names.isSome then
    Except.error GuessError.ConfigurationError
  else
    Except.ok ()

/-! ### Lemmas about the count index -/

theorem lookupCount_addCount (db : CountDB) (k : Barcode) (c : Nat) (k' : Barcode) :
    lookupCount (addCount db k c) k' = lookupCount db k' + if k = k' then c else 0 := by
  induction db with
  | nil => by_cases h : k = k' <;> simp [addCount, lookupCount, h]
  | cons kc rest ih =>
    obtain ⟨k1, c1⟩ := kc
    by_cases h : k1 = k
    · subst h
      by_cases h' : k1 = k'
      · subst h'
        simp [addCount, lookupCount]
        omega
      · simp [addCount, lookupCount, h']
    · simp only [addCount, if_neg h, lookupCount]
      rw [ih]
      omega

theorem totalCount_addCount (db : CountDB) (k : Barcode) (c : Nat) :
    totalCount (addCount db k c) = totalCount db + c := by
  induction db with
  | nil => simp [addCount, totalCount]
  | cons kc rest ih =>
    by_cases h : kc.1 = k <;> simp [addCount, h, totalCount, ih] <;> omega

theorem lookupCount_merge (a b : CountDB) (k : Barcode) :
    lookupCount (add_counts_from_other_db a b) k = lookupCount a k + lookupCount b k := by
  induction b generalizing a with
  | nil => simp [add_counts_from_other_db, lookupCount]
  | cons kc rest ih =>
    have := ih (addCount a kc.1 kc.2)
    simp only [add_counts_from_other_db, List.foldl] at this ⊢
    rw [this, lookupCount_addCount]
    by_cases h : kc.1 = k <;> simp [lookupCount, h] <;> omega

theorem totalCount_merge (a b : CountDB) :
    totalCount (add_counts_from_other_db a b) = totalCount a + totalCount b := by
  induction b generalizing a with
  | nil => simp [add_counts_from_other_db, totalCount]
  | cons kc rest ih =>
    have := ih (addCount a kc.1 kc.2)
    simp only [add_counts_from_other_db, List.foldl] at this ⊢
    rw [this, totalCount_addCount]
    simp [totalCount]
    omega

theorem lookupCount_worker_foldl (noise : Bool) (t : Tile) :
    ∀ (db : CountDB) (k : Barcode),
      lookupCount
          (t.foldl (fun db bc => if countedLine noise bc then addCount db bc 1 else db) db) k
        = lookupCount db k + (t.filter (countedLine noise)).count k := by
  induction t with
  | nil => intro db k; simp [List.count]
  | cons bc rest ih =>
    intro db k
    rw [List.foldl_cons, List.filter_cons]
    by_cases h : countedLine noise bc = true
    · simp only [h, if_true]
      rw [ih, lookupCount_addCount, List.count_cons]
      by_cases hk : bc = k <;> simp [hk] <;> omega
    · simp only [h, if_false, Bool.false_eq_true]
      rw [ih]

theorem lookupCount_worker (t : Tile) (noise : Bool) (k : Barcode) :
    lookupCount (count_occurrences_in_tsv t noise) k
      = (t.filter (countedLine noise)).count k := by
  simpa [lookupCount] using lookupCount_worker_foldl noise t [] k

theorem totalCount_worker_foldl (noise : Bool) (t : Tile) :
    ∀ (db : CountDB),
      totalCount
          (t.foldl (fun db bc => if countedLine noise bc then addCount db bc 1 else db) db)
        = totalCount db + (t.filter (countedLine noise)).length := by
  induction t with
  | nil => intro db; simp
  | cons bc rest ih =>
    intro db
    rw [List.foldl_cons, List.filter_cons]
    by_cases h : countedLine noise bc = true
    · simp only [h, if_true]
      rw [ih, totalCount_addCount, List.length_cons]
      omega
    · simp only [h, if_false, Bool.false_eq_true]
      rw [ih]

theorem totalCount_worker (t : Tile) (noise : Bool) :
    totalCount (count_occurrences_in_tsv t noise)
      = (t.filter (countedLine noise)).length := by
  simpa [totalCount] using totalCount_worker_foldl noise t []

theorem lookupCount_reduce_foldl (dbs : List CountDB) :
    ∀ (a : CountDB) (k : Barcode),
      lookupCount (dbs.foldl add_counts_from_other_db a) k
        = lookupCount a k + (dbs.map (fun db => lookupCount db k)).sum := by
  induction dbs with
  | nil => intro a k; simp
  | cons db rest ih =>
    intro a k
    simp [List.foldl, ih, lookupCount_merge]
    omega

theorem totalCount_reduce_foldl (dbs : List CountDB) :
    ∀ (a : CountDB),
      totalCount (dbs.foldl add_counts_from_other_db a)
        = totalCount a + (dbs.map totalCount).sum := by
  induction dbs with
  | nil => intro a; simp
  | cons db rest ih =>
    intro a
    simp [List.foldl, ih, totalCount_merge]
    omega

theorem lookupCount_reduceWorkerDBs (dbs : List CountDB) (k : Barcode) :
    lookupCount (reduceWorkerDBs dbs) k = (dbs.map (fun db => lookupCount db k)).sum := by
  simpa [reduceWorkerDBs, lookupCount] using lookupCount_reduce_foldl dbs [] k

theorem totalCount_reduceWorkerDBs (dbs : List CountDB) :
    totalCount (reduceWorkerDBs dbs) = (dbs.map totalCount).sum := by
  simpa [reduceWorkerDBs, totalCount] using totalCount_reduce_foldl dbs []

theorem count_filter_flatten (p : Barcode → Bool) (k : Barcode) (tiles : List Tile) :
    (tiles.flatten.filter p).count k
      = (tiles.map (fun t => (t.filter p).count k)).sum := by
  induction tiles with
  | nil => rfl
  | cons t rest ih =>
    simp only [List.flatten_cons, List.filter_append, List.count_append,
      List.map_cons, List.sum_cons, ih]

theorem length_filter_flatten (p : Barcode → Bool) (tiles : List Tile) :
    (tiles.flatten.filter p).length
      = (tiles.map (fun t => (t.filter p).length)).sum := by
  induction tiles with
  | nil => rfl
  | cons t rest ih =>
    simp only [List.flatten_cons, List.filter_append, List.length_append,
      List.map_cons, List.sum_cons, ih]

theorem lookupCount_reduceDB (tiles : List Tile) (noise : Bool) (k : Barcode) :
    lookupCount (reduceDB tiles noise) k
      = (tiles.flatten.filter (countedLine noise)).count k := by
  rw [reduceDB, lookupCount_reduceWorkerDBs, count_filter_flatten, List.map_map]
  rw [show ((fun db => lookupCount db k) ∘ fun t => count_occurrences_in_tsv t noise)
        = fun t => (t.filter (countedLine noise)).count k
      from funext fun t => lookupCount_worker t noise k]

theorem totalCount_reduceDB (tiles : List Tile) (noise : Bool) :
    totalCount (reduceDB tiles noise)
      = (tiles.flatten.filter (countedLine noise)).length := by
  rw [reduceDB, totalCount_reduceWorkerDBs, length_filter_flatten, List.map_map]
  rw [show (totalCount ∘ fun t => count_occurrences_in_tsv t noise)
        = fun t => (t.filter (countedLine noise)).length
      from funext fun t => totalCount_worker t noise]

/-! ### Lemmas about sorting and the output loop -/

theorem insertDesc_perm (r : Barcode × Nat) (l : CountDB) :
    (insertDesc r l).Perm (r :: l) := by
  induction l with
  | nil => exact List.Perm.refl _
  | cons x xs ih =>
    by_cases h : r.2 ≤ x.2
    · simp only [insertDesc, if_pos h]
      exact (ih.cons x).trans (List.Perm.swap r x xs)
    · simp only [insertDesc, if_neg h]
      exact List.Perm.refl _

theorem get_counts_descending_perm (db : CountDB) :
    (get_counts_descending db).Perm db := by
  induction db with
  | nil => exact List.Perm.refl _
  | cons kc rest ih =>
    exact (insertDesc_perm kc (get_counts_descending rest)).trans (ih.cons kc)

theorem mem_insertDesc {y r : Barcode × Nat} {l : CountDB} (h : y ∈ insertDesc r l) :
    y = r ∨ y ∈ l := by
  have := (insertDesc_perm r l).mem_iff.mp h
  simpa using this

theorem insertDesc_pairwise (r : Barcode × Nat) (l : CountDB)
    (h : l.Pairwise (fun a b => b.2 ≤ a.2)) :
    (insertDesc r l).Pairwise (fun a b => b.2 ≤ a.2) := by
  induction l with
  | nil => simp [insertDesc]
  | cons x xs ih =>
    rcases List.pairwise_cons.mp h with ⟨hx, hxs⟩
    by_cases hc : r.2 ≤ x.2
    · simp only [insertDesc, if_pos hc]
      refine List.pairwise_cons.mpr ⟨?_, ih hxs⟩
      intro y hy
      rcases mem_insertDesc hy with rfl | hy'
      · exact hc
      · exact hx y hy'
    · simp only [insertDesc, if_neg hc]
      refine List.pairwise_cons.mpr ⟨?_, h⟩
      intro y hy
      rcases List.mem_cons.mp hy with rfl | hy'
      · omega
      · exact le_trans (hx y hy') (by omega)

theorem get_counts_descending_pairwise (db : CountDB) :
    (get_counts_descending db).Pairwise (fun a b => b.2 ≤ a.2) := by
  induction db with
  | nil => simp [get_counts_descending]
  | cons kc rest ih => exact insertDesc_pairwise kc _ ih

theorem mem_emitRows {ref : ReferenceIndex} {b1 : Nat} {t : Option Nat} {row : OutRow} :
    ∀ {n : Nat} {l : CountDB}, row ∈ emitRows ref b1 t n l →
      ∃ kc ∈ l, row = formatRow ref b1 kc := by
  intro n l
  induction l generalizing n with
  | nil => intro h; simp [emitRows] at h
  | cons kc rest ih =>
    intro h
    simp only [emitRows] at h
    by_cases hb : truncBreak t n = true
    · simp [hb] at h
    · simp only [hb, if_false, Bool.false_eq_true, List.mem_cons] at h
      rcases h with rfl | h'
      · exact ⟨kc, List.mem_cons_self kc rest, rfl⟩
      · rcases ih h' with ⟨kc', hkc', hr⟩
        exact ⟨kc', List.mem_cons_of_mem kc hkc', hr⟩

theorem emitRows_pairwise (ref : ReferenceIndex) (b1 : Nat) (t : Option Nat) :
    ∀ (n : Nat) (l : CountDB), l.Pairwise (fun a b => b.2 ≤ a.2) →
      (emitRows ref b1 t n l).Pairwise (fun r s => s.count ≤ r.count) := by
  intro n l
  induction l generalizing n with
  | nil => intro _; simp [emitRows]
  | cons kc rest ih =>
    intro h
    rcases List.pairwise_cons.mp h with ⟨hk, hrest⟩
    simp only [emitRows]
    by_cases hb : truncBreak t n = true
    · simp [hb]
    · simp only [hb, if_false, Bool.false_eq_true]
      refine List.pairwise_cons.mpr ⟨?_, ih (n + 1) hrest⟩
      intro s hs
      rcases mem_emitRows hs with ⟨kc', hkc', rfl⟩
      exact hk kc' hkc'

theorem emitRows_no_trunc (ref : ReferenceIndex) (b1 : Nat) (t : Option Nat)
    (ht : ∀ i, truncBreak t i = false) :
    ∀ (n : Nat) (l : CountDB), emitRows ref b1 t n l = l.map (formatRow ref b1) := by
  intro n l
  induction l generalizing n with
  | nil => rfl
  | cons kc rest ih => simp [emitRows, ht n, ih (n + 1)]

theorem emitRows_trunc (ref : ReferenceIndex) (b1 : Nat) (N : Nat) (hN : N ≠ 0) :
    ∀ (l : CountDB) (i : Nat), emitRows ref b1 (some N) i l
      = (l.take (N + 1 - i)).map (formatRow ref b1) := by
  intro l
  induction l with
  | nil => intro i; simp [emitRows]
  | cons kc rest ih =>
    intro i
    by_cases hi : i > N
    · have hb : truncBreak (some N) i = true := by
        simp [truncBreak, hN, hi]
      have : N + 1 - i = 0 := by omega
      simp [emitRows, hb, this]
    · have hb : truncBreak (some N) i = false := by
        simp [truncBreak, hN]
        omega
      have htake : N + 1 - i = (N + 1 - (i + 1)) + 1 := by omega
      simp only [emitRows, hb, if_false, Bool.false_eq_true, ih (i + 1), htake,
        List.take_succ_cons, List.map_cons]

/-! ### Key invariants of the count index -/

theorem addCount_keys {P : Barcode → Prop} {db : CountDB} {k : Barcode} {c : Nat}
    (hdb : ∀ e ∈ db, P e.1) (hk : P k) :
    ∀ e ∈ addCount db k c, P e.1 := by
  induction db with
  | nil =>
    intro e he
    simp only [addCount, List.mem_singleton] at he
    subst he
    exact hk
  | cons kc rest ih =>
    obtain ⟨k1, c1⟩ := kc
    intro e he
    by_cases h : k1 = k
    · simp only [addCount, if_pos h, List.mem_cons] at he
      rcases he with rfl | he'
      · exact hdb (k1, c1) (List.mem_cons_self _ _)
      · exact hdb e (List.mem_cons_of_mem _ he')
    · simp only [addCount, if_neg h, List.mem_cons] at he
      rcases he with rfl | he'
      · exact hdb (k1, c1) (List.mem_cons_self _ _)
      · exact ih (fun e' he' => hdb e' (List.mem_cons_of_mem _ he')) e he'

theorem merge_keys {P : Barcode → Prop} {b : CountDB} :
    ∀ {a : CountDB}, (∀ e ∈ a, P e.1) → (∀ e ∈ b, P e.1) →
      ∀ e ∈ add_counts_from_other_db a b, P e.1 := by
  induction b with
  | nil => intro a ha _ e he; exact ha e he
  | cons kc rest ih =>
    intro a ha hb e he
    simp only [add_counts_from_other_db, List.foldl_cons] at he
    exact ih (addCount_keys ha (hb kc (List.mem_cons_self _ _)))
      (fun e' he' => hb e' (List.mem_cons_of_mem _ he')) e he

theorem worker_keys (noise : Bool) (t : Tile) :
    ∀ {db : CountDB}, (∀ e ∈ db, countedLine noise e.1 = true) →
      ∀ e ∈ t.foldl (fun db bc => if countedLine noise bc then addCount db bc 1 else db) db,
        countedLine noise e.1 = true := by
  induction t with
  | nil => intro db hdb e he; exact hdb e he
  | cons bc rest ih =>
    intro db hdb e he
    rw [List.foldl_cons] at he
    by_cases h : countedLine noise bc = true
    · rw [if_pos h] at he
      exact ih (addCount_keys (P := fun k => countedLine noise k = true) hdb h) e he
    · rw [if_neg h] at he
      exact ih hdb e he

theorem count_occurrences_keys (t : Tile) (noise : Bool) :
    ∀ e ∈ count_occurrences_in_tsv t noise, countedLine noise e.1 = true :=
  worker_keys noise t (fun e he => absurd he (List.not_mem_nil e))

theorem reduceWorkerDBs_foldl_keys {P : Barcode → Prop} (dbs : List CountDB) :
    ∀ {a : CountDB}, (∀ e ∈ a, P e.1) → (∀ db ∈ dbs, ∀ e ∈ db, P e.1) →
      ∀ e ∈ dbs.foldl add_counts_from_other_db a, P e.1 := by
  induction dbs with
  | nil => intro a ha _ e he; exact ha e he
  | cons db rest ih =>
    intro a ha hdbs e he
    rw [List.foldl_cons] at he
    exact ih (merge_keys ha (hdbs db (List.mem_cons_self _ _)))
      (fun db' hdb' => hdbs db' (List.mem_cons_of_mem _ hdb')) e he

theorem reduceDB_keys (tiles : List Tile) (noise : Bool) :
    ∀ e ∈ reduceDB tiles noise, countedLine noise e.1 = true := by
  rw [reduceDB, reduceWorkerDBs]
  refine reduceWorkerDBs_foldl_keys (P := fun k => countedLine noise k = true) _
    (fun e he => absurd he (List.not_mem_nil e)) ?_
  intro db hdb e he
  rw [List.mem_map] at hdb
  rcases hdb with ⟨t, _, rfl⟩
  exact count_occurrences_keys t noise e he

/-! ### Lemmas about the guesser -/

theorem mostAbundant_ne_none {l : List NovelPair} (h : l ≠ []) :
    ∃ q, mostAbundant l = some q := by
  cases l with
  | nil => exact absurd rfl h
  | cons p rest =>
    cases hrest : mostAbundant rest with
    | none => exact ⟨p, by simp [mostAbundant, hrest]⟩
    | some q' =>
      by_cases hgt : q'.count > p.count
      · exact ⟨q', by simp [mostAbundant, hrest, hgt]⟩
      · exact ⟨p, by simp [mostAbundant, hrest, hgt]⟩

theorem mostAbundant_spec {l : List NovelPair} {q : NovelPair}
    (h : mostAbundant l = some q) :
    q ∈ l ∧ ∀ r ∈ l, r.count ≤ q.count := by
  induction l generalizing q with
  | nil => simp [mostAbundant] at h
  | cons p rest ih =>
    cases hrest : mostAbundant rest with
    | none =>
      have hq : p = q := by
        simp only [mostAbundant, hrest] at h
        exact Option.some_inj.mp h
      subst hq
      have hnil : rest = [] := by
        cases rest with
        | nil => rfl
        | cons x xs =>
          rcases mostAbundant_ne_none (l := x :: xs) (by simp) with ⟨q', hq'⟩
          rw [hq'] at hrest
          cases hrest
      subst hnil
      refine ⟨List.mem_cons_self _ _, ?_⟩
      intro r hr
      rcases List.mem_cons.mp hr with rfl | hr'
      · exact le_refl _
      · simp at hr'
    | some q' =>
      rcases ih hrest with ⟨hmem, hmax⟩
      simp only [mostAbundant, hrest] at h
      by_cases hgt : q'.count > p.count
      · rw [if_pos hgt] at h
        obtain rfl := Option.some_inj.mp h
        refine ⟨List.mem_cons_of_mem _ hmem, ?_⟩
        intro r hr
        rcases List.mem_cons.mp hr with rfl | hr'
        · omega
        · exact hmax r hr'
      · rw [if_neg hgt] at h
        obtain rfl := Option.some_inj.mp h
        refine ⟨List.mem_cons_self _ _, ?_⟩
        intro r hr
        rcases List.mem_cons.mp hr with rfl | hr'
        · exact le_refl _
        · exact le_trans (hmax r hr') (by omega)

/-! ### Claim theorems -/

/-- C1 (Count conservation): after all worker indexes are merged, the final
reduction index maps each barcode string to exactly the number of lines
across all tile files whose barcode field equals that string (all lines when
`include_noise` is true, non-noise lines when false), so the sum of all
counts equals the total number of counted lines — no line dropped, none
counted twice. -/
theorem count_conservation (tiles : List Tile) (include_noise : Bool) :
    (∀ k, lookupCount (reduceDB tiles include_noise) k
        = (tiles.flatten.filter (countedLine include_noise)).count k)
    ∧ totalCount (reduceDB tiles include_noise)
        = (tiles.flatten.filter (countedLine include_noise)).length
    ∧ (include_noise = true →
        tiles.flatten.filter (countedLine include_noise) = tiles.flatten) := by
  refine ⟨fun k => lookupCount_reduceDB tiles include_noise k,
    totalCount_reduceDB tiles include_noise, ?_⟩
  rintro rfl
  exact List.filter_eq_self.mpr (fun a _ => rfl)

/-- Witness for C1: two tile files with 2 and 2 lines; the reduction index
counts the key `AA` three times, and with `include_noise` no line is
filtered. -/
theorem count_conservation_witness :
    lookupCount (reduceDB [[['A', 'A'], ['A', 'A']], [['A', 'A'], ['C', 'C']]] false) ['A', 'A'] = 3
    ∧ ([[['A', 'A'], ['A', 'A']], [['A', 'A'], ['C', 'C']]] : List Tile).flatten.filter
        (countedLine true)
      = [['A', 'A'], ['A', 'A'], ['A', 'A'], ['C', 'C']] := by
  constructor
  · rw [(count_conservation [[['A', 'A'], ['A', 'A']], [['A', 'A'], ['C', 'C']]] false).1
      ['A', 'A']]
    decide
  · exact (count_conservation [[['A', 'A'], ['A', 'A']], [['A', 'A'], ['C', 'C']]] true).2.2 rfl

/-- C2 (Merge order-independence): merging the per-worker count indexes into
the reduction index in any completion order yields an identical final
reduction index — per-key counts are the same for every permutation of the
merge order, the merge operation being commutative and associative per key. -/
theorem merge_order_independence (dbs dbs' : List CountDB) (h : dbs.Perm dbs') :
    (∀ k, lookupCount (reduceWorkerDBs dbs) k = lookupCount (reduceWorkerDBs dbs') k)
    ∧ (∀ a b k, lookupCount (add_counts_from_other_db a b) k
        = lookupCount (add_counts_from_other_db b a) k)
    ∧ (∀ a b c k,
        lookupCount (add_counts_from_other_db (add_counts_from_other_db a b) c) k
          = lookupCount (add_counts_from_other_db a (add_counts_from_other_db b c)) k) := by
  refine ⟨fun k => ?_, fun a b k => ?_, fun a b c k => ?_⟩
  · rw [lookupCount_reduceWorkerDBs, lookupCount_reduceWorkerDBs]
    exact (h.map fun db => lookupCount db k).sum_eq
  · rw [lookupCount_merge, lookupCount_merge]
    omega
  · rw [lookupCount_merge, lookupCount_merge, lookupCount_merge, lookupCount_merge]
    omega

/-- Witness for C2: two concrete worker indexes merged in either completion
order give the same count for key `A`. -/
theorem merge_order_independence_witness :
    lookupCount (reduceWorkerDBs [[(['A'], 2)], [(['A'], 3), (['C'], 1)]]) ['A']
      = lookupCount (reduceWorkerDBs [[(['A'], 3), (['C'], 1)], [(['A'], 2)]]) ['A'] :=
  (merge_order_independence _ _ (List.Perm.swap _ _ _)).1 ['A']

/-- C3 (Truncation, failing input): with `truncateToLength = 1` and three
distinct barcodes the output loop writes 2 data rows — `truncateToLength + 1`
rows, one more than the documented cap — because the loop breaks only once
`num_processed > truncateToLength`. -/
theorem truncation_off_by_one :
    (count_and_sort_barcodes []
        [[['A', 'A'], ['A', 'A'], ['A', 'A'], ['C', 'C'], ['C', 'C'], ['G', 'G']]]
        1 1 (some 1) false true).rows.length = 2 := by
  rfl

/-- C4 (Noise filtering): when `include_noise` is false, every barcode string
containing the no-call placeholder character (a period) is never incremented
in any worker index or in the reduction index and never emitted in the output
TSV; when `include_noise` is true such strings are counted like any other
barcode. -/
theorem noise_filtering (tiles : List Tile) (bc : Barcode) (h : '.' ∈ bc)
    (ref : ReferenceIndex) (b1 b2 : Nat) (t : Option Nat) (om : Bool) :
    (∀ tile ∈ tiles, lookupCount (count_occurrences_in_tsv tile false) bc = 0)
    ∧ lookupCount (reduceDB tiles false) bc = 0
    ∧ (∀ row ∈ (count_and_sort_barcodes ref tiles b1 b2 t false om).rows,
        '.' ∉ row.barcode1 ++ row.barcode2)
    ∧ lookupCount (reduceDB tiles true) bc = tiles.flatten.count bc := by
  have hcount0 : ∀ (l : List Barcode), (l.filter (countedLine false)).count bc = 0 := by
    intro l
    rw [List.count_eq_zero]
    intro hmem
    rw [List.mem_filter] at hmem
    have : countedLine false bc = false := by simp [countedLine, h]
    rw [this] at hmem
    exact Bool.false_ne_true hmem.2
  refine ⟨?_, ?_, ?_, ?_⟩
  · intro tile _
    rw [lookupCount_worker]
    exact hcount0 tile
  · rw [lookupCount_reduceDB]
    exact hcount0 tiles.flatten
  · intro row hrow
    simp only [count_and_sort_barcodes] at hrow
    rcases mem_emitRows hrow with ⟨kc, hkc, rfl⟩
    have hkdb : kc ∈ reduceDB tiles false :=
      (get_counts_descending_perm _).mem_iff.mp hkc
    have hkey := reduceDB_keys tiles false kc hkdb
    intro habs
    simp only [formatRow, List.take_append_drop] at habs
    simp [countedLine] at hkey
    exact hkey habs
  · rw [lookupCount_reduceDB]
    congr 1
    exact List.filter_eq_self.mpr (fun a _ => rfl)

/-- Witness for C4: the tile `[A., AA]`: the period-containing line is
excluded with `include_noise = false` and counted with `include_noise = true`. -/
theorem noise_filtering_witness :
    lookupCount (reduceDB [[['A', '.'], ['A', 'A']]] false) ['A', '.'] = 0
    ∧ lookupCount (reduceDB [[['A', '.'], ['A', 'A']]] true) ['A', '.'] = 1 := by
  have h := noise_filtering [[['A', '.'], ['A', 'A']]] ['A', '.'] (by decide) [] 1 1 none false
  refine ⟨h.2.1, ?_⟩
  rw [h.2.2.2]
  decide

/-- C5 (Guesser partial-match preference): if any novel pair shares exactly
one barcode (at either position) with the sample's expected pair, the guesser
selects the most abundant such partial match with match type `partial`, even
when a non-partial novel pair has a strictly higher count; only when no
partial match exists does it fall back to the most abundant novel pair
overall. -/
theorem guesser_partial_match_preference (e1 e2 : Barcode) (novel : List NovelPair) :
    ((∃ p ∈ novel, partialMatch e1 e2 p = true) →
      ∃ q, guessForSample e1 e2 novel = some (q, "partial")
        ∧ q ∈ novel ∧ partialMatch e1 e2 q = true
        ∧ ∀ r ∈ novel, partialMatch e1 e2 r = true → r.count ≤ q.count)
    ∧ ((∀ p ∈ novel, partialMatch e1 e2 p = false) →
      guessForSample e1 e2 novel = (mostAbundant novel).map (fun p => (p, "none"))) := by
  constructor
  · rintro ⟨p, hp, hpart⟩
    have hfil : p ∈ novel.filter (partialMatch e1 e2) := List.mem_filter.mpr ⟨hp, hpart⟩
    rcases mostAbundant_ne_none (List.ne_nil_of_mem hfil) with ⟨q, hq⟩
    rcases mostAbundant_spec hq with ⟨hqmem, hqmax⟩
    rw [List.mem_filter] at hqmem
    refine ⟨q, ?_, hqmem.1, hqmem.2, ?_⟩
    · simp only [guessForSample, hq]
    · intro r hr hrpart
      exact hqmax r (List.mem_filter.mpr ⟨hr, hrpart⟩)
  · intro hnone
    have hfil : novel.filter (partialMatch e1 e2) = [] := by
      rw [List.filter_eq_nil_iff]
      intro p hp
      simp [hnone p hp]
    simp only [guessForSample, hfil, mostAbundant]

/-- Witness for C5: expected pair `(X, Y)`; novel pairs `(X, Z)` of count 50
and `(W, V)` of count 200 — the partial match `(X, Z)` is selected despite
the higher count of `(W, V)`. -/
theorem guesser_partial_match_preference_witness :
    ∃ q, guessForSample ['X'] ['Y']
          [⟨['X'], ['Z'], 50⟩, ⟨['W'], ['V'], 200⟩] = some (q, "partial")
      ∧ q ∈ [⟨['X'], ['Z'], 50⟩, ⟨['W'], ['V'], 200⟩]
      ∧ partialMatch ['X'] ['Y'] q = true
      ∧ ∀ r ∈ [⟨['X'], ['Z'], 50⟩, ⟨['W'], ['V'], 200⟩],
          partialMatch ['X'] ['Y'] r = true → r.count ≤ q.count :=
  (guesser_partial_match_preference ['X'] ['Y']
      [⟨['X'], ['Z'], 50⟩, ⟨['W'], ['V'], 200⟩]).1
    ⟨⟨['X'], ['Z'], 50⟩, by decide, by decide⟩

/-- C6 (Pool-assignment sanity check): whenever total assigned reads over
total reads is below `expected_assigned_fraction`, the guesser fails with
`PoolAssignmentError`, before any per-sample guess is attempted. -/
theorem pool_assignment_check (metrics : List SampleMetrics) (totalReads : Nat)
    (flagged : List SampleMetrics) (novel : List NovelPair)
    (expected_assigned_fraction : ℚ)
    (h : (((metrics.map (fun s => s.readCount)).sum : Nat) : ℚ) / (totalReads : ℚ)
        < expected_assigned_fraction) :
    find_uncertain_barcodes metrics totalReads flagged novel expected_assigned_fraction
      = Except.error GuessError.PoolAssignmentError := by
  simp only [find_uncertain_barcodes]
  rw [if_pos h]

/-- Witness for C6: one sample with 1 assigned read out of 10 total and the
default 0.7 threshold fails with `PoolAssignmentError`. -/
theorem pool_assignment_check_witness :
    find_uncertain_barcodes [⟨"s1", ['X'], ['Y'], 1⟩] 10 [] [] (7 / 10)
      = Except.error GuessError.PoolAssignmentError :=
  pool_assignment_check [⟨"s1", ['X'], ['Y'], 1⟩] 10 [] [] (7 / 10) (by norm_num)

/-- C7 (Guesser sample-selection mutual exclusivity): supplying both an
explicit `sample_names` list and a `readcount_threshold` is rejected as a
configuration error by the mutually exclusive option group of
`parser_guess_barcodes`. -/
theorem guess_barcodes_mutual_exclusivity (sel : GuessBarcodesSelection)
    (names : List String) (thr : Nat)
    (h1 : sel.sample_names = some names) (h2 : sel.readcount_threshold = some thr) :
    checkGuessBarcodesSelection sel = Except.error GuessError.ConfigurationError := by
  simp [checkGuessBarcodesSelection, h1, h2]

/-- Witness for C7: threshold 100 together with sample list `[sample1]` is a
configuration error. -/
theorem guess_barcodes_mutual_exclusivity_witness :
    checkGuessBarcodesSelection ⟨some 100, some ["sample1"]⟩
      = Except.error GuessError.ConfigurationError :=
  guess_barcodes_mutual_exclusivity ⟨some 100, some ["sample1"]⟩ ["sample1"] 100 rfl rfl

/-- C8 (Likely-name lookup): each output row's likely-index-name fields are
the comma-joined names of all known reference indexes within Hamming
distance 1 of the corresponding barcode segment; a unique match yields that
single name and no match yields the literal `Unknown`. -/
theorem likely_name_lookup (ref : ReferenceIndex) (tiles : List Tile)
    (b1 b2 : Nat) (t : Option Nat) (noise om : Bool) :
    (∀ row ∈ (count_and_sort_barcodes ref tiles b1 b2 t noise om).rows,
        row.likely_index_names1 = likelyField ref row.barcode1
      ∧ row.likely_index_names2 = likelyField ref row.barcode2)
    ∧ (∀ seg, guess_index ref seg = [] → likelyField ref seg = "Unknown")
    ∧ (∀ seg nm, guess_index ref seg = [nm] → likelyField ref seg = nm) := by
  refine ⟨?_, ?_, ?_⟩
  · intro row hrow
    simp only [count_and_sort_barcodes] at hrow
    rcases mem_emitRows hrow with ⟨kc, _, rfl⟩
    exact ⟨rfl, rfl⟩
  · intro seg hempty
    simp [likelyField, hempty]
  · intro seg nm hone
    simp [likelyField, hone, commaJoin]

/-- Witness for C8: against a reference holding index `idxA = AA`, the
segment `GGG` matches nothing (field `Unknown`) and the segment `AC` is one
substitution away from exactly `idxA` (field `idxA`). -/
theorem likely_name_lookup_witness :
    likelyField [("idxA", ['A', 'A'])] ['G', 'G', 'G'] = "Unknown"
    ∧ likelyField [("idxA", ['A', 'A'])] ['A', 'C'] = "idxA" := by
  have h := likely_name_lookup [("idxA", ['A', 'A'])] [] 2 0 none false false
  exact ⟨h.2.1 ['G', 'G', 'G'] (by decide), h.2.2 ['A', 'C'] "idxA" (by decide)⟩

/-- C9 (Ranked output ordering): the data rows are sorted by count
descending, the row order is a function of the final reduction index alone,
and unless `omitHeader` is set the header row
`Barcode1, Likely_Index_Names1, Barcode2, Likely_Index_Names2, Count` is
emitted first. -/
theorem ranked_output_ordering (ref : ReferenceIndex) (tiles tiles' : List Tile)
    (b1 b2 : Nat) (t : Option Nat) (noise om : Bool) :
    ((count_and_sort_barcodes ref tiles b1 b2 t noise false).header
        = some ["Barcode1", "Likely_Index_Names1", "Barcode2", "Likely_Index_Names2",
            "Count"])
    ∧ ((count_and_sort_barcodes ref tiles b1 b2 t noise true).header = none)
    ∧ ((count_and_sort_barcodes ref tiles b1 b2 t noise om).rows.Pairwise
        (fun r s => s.count ≤ r.count))
    ∧ (reduceDB tiles noise = reduceDB tiles' noise →
        (count_and_sort_barcodes ref tiles b1 b2 t noise om).rows
          = (count_and_sort_barcodes ref tiles' b1 b2 t noise om).rows) := by
  refine ⟨rfl, rfl, ?_, ?_⟩
  · simp only [count_and_sort_barcodes]
    exact emitRows_pairwise ref b1 t 0 _ (get_counts_descending_pairwise _)
  · intro h
    simp only [count_and_sort_barcodes, h]

/-- Witness for C9: two runs whose tile files differ but whose final
reduction indexes agree produce identical data rows. -/
theorem ranked_output_ordering_witness :
    (count_and_sort_barcodes [] [[['A']], [['C']]] 1 0 none false false).rows
      = (count_and_sort_barcodes [] [[['A'], ['C']]] 1 0 none false false).rows :=
  (ranked_output_ordering [] [[['A']], [['C']]] [[['A'], ['C']]] 1 0 none false
      false).2.2.2 (by decide)

/-- C10 (Independence of `barcode2_len`): the output of
`count_and_sort_barcodes` is the same for any two values of `barcode2_len`,
all other arguments equal — the second barcode segment is always the entire
remainder after the first `barcode1_len` characters. -/
theorem barcode2_len_independence (ref : ReferenceIndex) (tiles : List Tile)
    (b1 b2 b2' : Nat) (t : Option Nat) (noise om : Bool) :
    count_and_sort_barcodes ref tiles b1 b2 t noise om
      = count_and_sort_barcodes ref tiles b1 b2' t noise om := rfl

end ViralCore
